import Mathlib

/-!
# Staking transaction tracker (`staker/tracker.go`)

A shallow embedding of `StakingTxTracker`, the in-memory registry that maps the
hash string of a transaction to a pointer to its `TrackedTransaction` record,
together with its five methods `Add`, `SetState`, `Get`, `Remove`, `GetAll`.

Modelling choices.

* The Go map `map[string]*TrackedTransaction` stores *pointers*.  The embedding
  keeps this: a registry is the map (an association list with pairwise
  distinct keys, which is what a Go map is up to iteration order) together
  with the cells the pointers refer to.  A pointer is a natural number, `0` is
  `nil`, and the pointer `p + 1` refers to cell number `p`.
  `&TrackedTransaction{...}` allocates a new cell after all existing ones.
* `wire.MsgTx` and `tx.TxHash().String()` belong to the btcd library.  The
  transaction type `Tx` and the hash function `txHash : Tx → String` are
  parameters of the development; nothing is assumed about `txHash`.
  `tx` ranges over the non-nil `*wire.MsgTx` values.
* `TxState` is `uint8`: its values are the numbers below 256, of which the
  source names two, `Send` (0) and `Confirmed` (1).
* The methods run under one `sync.RWMutex`; the embedding describes the
  effect of each critical section, calls being executed one at a time.
* Go iterates over a map in an unspecified order; `GetAll` here lists the
  pointers in the order of the association list, and the statements about
  `GetAll` are up to permutation.
-/

namespace Staker

/-- The Go type `TxState` (`uint8`). -/
abbrev TxState := Fin 256

/-- Constant `Send TxState = iota`. -/
def Send : TxState := 0

/-- Constant `Confirmed`, the second value of the `iota` block. -/
def Confirmed : TxState := 1

/-- The Go struct `TrackedTransaction`: the transaction, its script (`[]byte`) and its state. -/
structure TrackedTransaction (Tx : Type) where
  tx : Tx
  txscript : List (Fin 256)
  state : TxState
deriving DecidableEq, Repr

/-- A `*TrackedTransaction`: `0` is `nil`, `p + 1` points to cell `p`. -/
abbrev Ptr := Nat

/-- The registry: the field `transactions` of the Go struct `StakingTxTracker`, and the
`TrackedTransaction` cells its pointers refer to. -/
structure StakingTxTracker (Tx : Type) where
  transactions : AList (fun _ : String => Ptr)
  cells : List (TrackedTransaction Tx)

/-- Reading through a pointer: `none` for `nil` (and for a pointer to no cell). -/
def deref {Tx : Type} (cells : List (TrackedTransaction Tx)) (p : Nat) :
    Option (TrackedTransaction Tx) :=
  match p with
  | 0 => none
  | q + 1 => cells[q]?

/-- The outcome of a method with result type `error`: it returns `nil` (`none`) or an
error with a message, leaving a registry behind, or the call panics. -/
inductive Outcome (Tx : Type) where
  | returned (err : Option String) (post : StakingTxTracker Tx)
  | panicked

/-- Function `NewStakingTxTracker`: an empty map. -/
def NewStakingTxTracker {Tx : Type} : StakingTxTracker Tx :=
  ⟨∅, []⟩

/-- Method `Add`: the error (`none` for `nil`) and the registry after the call. -/
def Add {Tx : Type} (txHash : Tx → String) (t : StakingTxTracker Tx) (tx : Tx)
    (txscript : List (Fin 256)) : Option String × StakingTxTracker Tx :=
  let h := txHash tx
  match t.transactions.lookup h with
  | some _ => (some ("tx with hash " ++ h ++ " already added"), t)
  | none =>
    (none, ⟨t.transactions.insert h (t.cells.length + 1),
            t.cells ++ [⟨tx, txscript, Send⟩]⟩)

/-- Method `SetState`: looks the pointer up and assigns the field `state` through it. -/
def SetState {Tx : Type} (t : StakingTxTracker Tx) (txHash : String) (state : TxState) :
    Outcome Tx :=
  match t.transactions.lookup txHash with
  | none => Outcome.returned (some ("tx with hash " ++ txHash ++ " not found")) t
  | some entry =>
    match deref t.cells entry with
    | none => Outcome.panicked
    | some e =>
      Outcome.returned none
        ⟨t.transactions, t.cells.set (entry - 1) ⟨e.tx, e.txscript, state⟩⟩

/-- Method `Get`: the pointer stored under the hash, `nil` when the hash is no key. -/
def Get {Tx : Type} (t : StakingTxTracker Tx) (txHash : String) : Ptr :=
  match t.transactions.lookup txHash with
  | none => 0
  | some entry => entry

/-- Method `Remove`: `delete(t.transactions, txHash)`. -/
def Remove {Tx : Type} (t : StakingTxTracker Tx) (txHash : String) : StakingTxTracker Tx :=
  ⟨t.transactions.erase txHash, t.cells⟩

/-- Method `GetAll`: the pointers stored in the map, one per key. -/
def GetAll {Tx : Type} (t : StakingTxTracker Tx) : List Ptr :=
  t.transactions.entries.map (fun e => e.2)

/-- The record a caller sees behind `Get(txHash)`: `none` when `Get` returns `nil`. -/
def entryAt {Tx : Type} (t : StakingTxTracker Tx) (txHash : String) :
    Option (TrackedTransaction Tx) :=
  deref t.cells (Get t txHash)

/-- A call of one of the three mutating methods. -/
inductive Call (Tx : Type) where
  | add (tx : Tx) (txscript : List (Fin 256))
  | setState (txHash : String) (state : TxState)
  | remove (txHash : String)

/-- The registry after one call; `none` when the call panics. -/
def step {Tx : Type} (txHash : Tx → String) (t : StakingTxTracker Tx) :
    Call Tx → Option (StakingTxTracker Tx)
  | Call.add tx txscript => some (Add txHash t tx txscript).2
  | Call.setState h state =>
    match SetState t h state with
    | Outcome.returned _ post => some post
    | Outcome.panicked => none
  | Call.remove h => some (Remove t h)

/-- The registry after a sequence of calls, executed from left to right. -/
def run {Tx : Type} (txHash : Tx → String) (t : StakingTxTracker Tx) :
    List (Call Tx) → Option (StakingTxTracker Tx)
  | [] => some t
  | c :: cs =>
    match step txHash t c with
    | none => none
    | some t' => run txHash t' cs

/-- A registry obtained from `NewStakingTxTracker` by calls of `Add`, `SetState`, `Remove`. -/
def Reachable {Tx : Type} (txHash : Tx → String) (t : StakingTxTracker Tx) : Prop :=
  ∃ calls : List (Call Tx), run txHash NewStakingTxTracker calls = some t

/-- Registry invariant: every stored pointer is non-nil and refers to a cell, and no two
keys share a pointer. -/
def WF {Tx : Type} (t : StakingTxTracker Tx) : Prop :=
  (∀ (k : String) (p : Nat), t.transactions.lookup k = some p → 0 < p ∧ p ≤ t.cells.length) ∧
  (∀ (k k' : String) (p : Nat), t.transactions.lookup k = some p →
    t.transactions.lookup k' = some p → k = k')

/-- The registry as its callers observe it: every key with the record behind its pointer. -/
def view {Tx : Type} (t : StakingTxTracker Tx) : List (String × Option (TrackedTransaction Tx)) :=
  t.transactions.entries.map (fun e => (e.1, deref t.cells e.2))

/-- The state of an entry with hash `h` and state `init` after the `SetState` calls `sets`
(hash and state of each, in the order of the calls): the state of the last call on `h`,
and `init` when there is none. -/
def stateAfter (sets : List (String × TxState)) (h : String) (init : TxState) : TxState :=
  sets.foldl (fun acc c => if c.1 = h then c.2 else acc) init

/-- An example registry, over transactions given as a hash string and a payload number:
the one after `Add` of ("a", 1) with script [1], `Add` of ("b", 2) with script [2] and
`SetState("a", Confirmed)`. -/
def exampleTracker : StakingTxTracker (String × Nat) :=
  ⟨(AList.insert "a" 1 ∅).insert "b" 2, [⟨("a", 1), [1], Confirmed⟩, ⟨("b", 2), [2], Send⟩]⟩

/-- The calls that lead from `NewStakingTxTracker` to `exampleTracker`. -/
def exampleCalls : List (Call (String × Nat)) :=
  [Call.add ("a", 1) [1], Call.add ("b", 2) [2], Call.setState "a" Confirmed]

section
variable {Tx : Type}

theorem deref_append_old (cells l : List (TrackedTransaction Tx)) (p : Nat)
    (hp : p ≤ cells.length) : deref (cells ++ l) p = deref cells p := by
  cases p with
  | zero => rfl
  | succ q =>
    simp only [deref]
    exact List.getElem?_append_left (by omega)

theorem deref_append_new (cells : List (TrackedTransaction Tx)) (c : TrackedTransaction Tx) :
    deref (cells ++ [c]) (cells.length + 1) = some c := by
  simp [deref]

theorem deref_set_same (cells : List (TrackedTransaction Tx)) (p : Nat)
    (e c : TrackedTransaction Tx) (h : deref cells p = some e) :
    deref (cells.set (p - 1) c) p = some c := by
  cases p with
  | zero => simp [deref] at h
  | succ q =>
    simp only [deref] at h ⊢
    have hq : q < cells.length := by
      rcases Nat.lt_or_ge q cells.length with h1 | h1
      · exact h1
      · rw [List.getElem?_eq_none h1] at h; cases h
    simp [hq]

theorem deref_set_ne (cells : List (TrackedTransaction Tx)) (p p' : Nat)
    (c : TrackedTransaction Tx) (hp : 0 < p) (hne : p' ≠ p) :
    deref (cells.set (p - 1) c) p' = deref cells p' := by
  cases p' with
  | zero => rfl
  | succ q =>
    simp only [deref]
    apply List.getElem?_set_ne
    omega

theorem deref_of_valid (cells : List (TrackedTransaction Tx)) (p : Nat)
    (h0 : 0 < p) (h1 : p ≤ cells.length) : ∃ e, deref cells p = some e := by
  cases p with
  | zero => omega
  | succ q =>
    have hq : q < cells.length := by omega
    exact ⟨cells[q], by simp [deref, hq]⟩


theorem Add_of_mem (txHash : Tx → String) (t : StakingTxTracker Tx) (tx : Tx)
    (s : List (Fin 256)) (h : txHash tx ∈ t.transactions) :
    Add txHash t tx s = (some ("tx with hash " ++ txHash tx ++ " already added"), t) := by
  obtain ⟨p, hp⟩ := Option.isSome_iff_exists.mp (AList.lookup_isSome.mpr h)
  simp only [Add, hp]

theorem Add_of_not_mem (txHash : Tx → String) (t : StakingTxTracker Tx) (tx : Tx)
    (s : List (Fin 256)) (h : txHash tx ∉ t.transactions) :
    Add txHash t tx s =
      (none, ⟨t.transactions.insert (txHash tx) (t.cells.length + 1),
              t.cells ++ [⟨tx, s, Send⟩]⟩) := by
  have hp := AList.lookup_eq_none.mpr h
  simp only [Add, hp]

theorem SetState_of_not_mem (t : StakingTxTracker Tx) (h : String) (st : TxState)
    (hn : h ∉ t.transactions) :
    SetState t h st = Outcome.returned (some ("tx with hash " ++ h ++ " not found")) t := by
  have hp := AList.lookup_eq_none.mpr hn
  simp only [SetState, hp]

theorem SetState_of_lookup (t : StakingTxTracker Tx) (h : String) (st : TxState) (p : Nat)
    (e : TrackedTransaction Tx) (hp : t.transactions.lookup h = some p)
    (he : deref t.cells p = some e) :
    SetState t h st =
      Outcome.returned none ⟨t.transactions, t.cells.set (p - 1) ⟨e.tx, e.txscript, st⟩⟩ := by
  simp only [SetState, hp, he]

theorem Get_of_lookup (t : StakingTxTracker Tx) (h : String) (p : Nat)
    (hp : t.transactions.lookup h = some p) : Get t h = p := by
  simp only [Get, hp]

theorem Get_of_not_mem (t : StakingTxTracker Tx) (h : String) (hn : h ∉ t.transactions) :
    Get t h = 0 := by
  have hp := AList.lookup_eq_none.mpr hn
  simp only [Get, hp]

theorem WF_new : WF (NewStakingTxTracker : StakingTxTracker Tx) := by
  constructor
  · intro k p h
    simp [NewStakingTxTracker] at h
  · intro k k' p h
    simp [NewStakingTxTracker] at h

theorem WF_Add (txHash : Tx → String) (t : StakingTxTracker Tx) (tx : Tx)
    (s : List (Fin 256)) (hw : WF t) : WF (Add txHash t tx s).2 := by
  by_cases hm : txHash tx ∈ t.transactions
  · rw [Add_of_mem txHash t tx s hm]; exact hw
  · rw [Add_of_not_mem txHash t tx s hm]
    have key : ∀ (k : String) (p : Nat), (t.transactions.insert (txHash tx) (t.cells.length + 1)).lookup k = some p →
        (k = txHash tx ∧ p = t.cells.length + 1) ∨
        (k ≠ txHash tx ∧ t.transactions.lookup k = some p) := by
      intro k p h
      by_cases hk : k = txHash tx
      · subst hk
        rw [AList.lookup_insert] at h
        exact Or.inl ⟨rfl, (Option.some.inj h).symm⟩
      · rw [AList.lookup_insert_ne hk] at h
        exact Or.inr ⟨hk, h⟩
    constructor
    · intro k p h
      simp only [List.length_append, List.length_singleton]
      rcases key k p h with ⟨_, hp⟩ | ⟨_, hp⟩
      · omega
      · have := hw.1 k p hp; omega
    · intro k k' p h h'
      rcases key k p h with ⟨hk, hp⟩ | ⟨hk, hp⟩ <;> rcases key k' p h' with ⟨hk', hp'⟩ | ⟨hk', hp'⟩
      · rw [hk, hk']
      · have := hw.1 k' p hp'; omega
      · have := hw.1 k p hp; omega
      · exact hw.2 k k' p hp hp'

theorem WF_SetState (t t' : StakingTxTracker Tx) (h : String) (st : TxState)
    (err : Option String) (hw : WF t) (hs : SetState t h st = Outcome.returned err t') :
    WF t' := by
  unfold SetState at hs
  split at hs
  · cases hs; exact hw
  · split at hs
    · cases hs
    · cases hs
      constructor
      · intro k p hk
        have := hw.1 k p hk
        simpa using this
      · exact hw.2

theorem WF_Remove (t : StakingTxTracker Tx) (h : String) (hw : WF t) : WF (Remove t h) := by
  have key : ∀ (k : String) (p : Nat), (t.transactions.erase h).lookup k = some p →
      t.transactions.lookup k = some p := by
    intro k p hk
    by_cases e : k = h
    · subst e; rw [AList.lookup_erase] at hk; cases hk
    · rwa [AList.lookup_erase_ne e] at hk
  constructor
  · intro k p hk; exact hw.1 k p (key k p hk)
  · intro k k' p hk hk'; exact hw.2 k k' p (key k p hk) (key k' p hk')

theorem WF_step (txHash : Tx → String) (t t' : StakingTxTracker Tx) (c : Call Tx)
    (hw : WF t) (hs : step txHash t c = some t') : WF t' := by
  cases c with
  | add tx s => simp only [step, Option.some.injEq] at hs; subst hs; exact WF_Add txHash t tx s hw
  | setState h st =>
    simp only [step] at hs
    split at hs
    · rename_i err post heq
      cases hs
      exact WF_SetState t t' h st err hw heq
    · cases hs
  | remove h => simp only [step, Option.some.injEq] at hs; subst hs; exact WF_Remove t h hw

theorem WF_run (txHash : Tx → String) (cs : List (Call Tx)) :
    ∀ t t' : StakingTxTracker Tx, WF t → run txHash t cs = some t' → WF t' := by
  induction cs with
  | nil => intro t t' hw h; simp only [run, Option.some.injEq] at h; subst h; exact hw
  | cons c cs ih =>
    intro t t' hw h
    simp only [run] at h
    split at h
    · cases h
    · rename_i t1 heq
      exact ih t1 t' (WF_step txHash t t1 c hw heq) h

theorem WF_of_Reachable (txHash : Tx → String) (t : StakingTxTracker Tx)
    (h : Reachable txHash t) : WF t := by
  obtain ⟨cs, hcs⟩ := h
  exact WF_run txHash cs _ t WF_new hcs


theorem SetState_returned (t t' : StakingTxTracker Tx) (h : String) (st : TxState)
    (err : Option String) (hs : SetState t h st = Outcome.returned err t') :
    (h ∉ t.transactions ∧ err = some ("tx with hash " ++ h ++ " not found") ∧ t' = t) ∨
    (∃ (p : Nat) (e : TrackedTransaction Tx), t.transactions.lookup h = some p ∧
      deref t.cells p = some e ∧ err = none ∧
      t' = ⟨t.transactions, t.cells.set (p - 1) ⟨e.tx, e.txscript, st⟩⟩) := by
  unfold SetState at hs
  split at hs
  · rename_i hl
    cases hs
    exact Or.inl ⟨AList.lookup_eq_none.mp hl, rfl, rfl⟩
  · rename_i p hl
    split at hs
    · cases hs
    · rename_i e he
      cases hs
      exact Or.inr ⟨p, e, hl, he, rfl, rfl⟩

theorem lookup_of_mem (t : StakingTxTracker Tx) (h : String) (hm : h ∈ t.transactions) :
    ∃ p : Nat, t.transactions.lookup h = some p :=
  Option.isSome_iff_exists.mp (AList.lookup_isSome.mpr hm)

theorem mem_of_lookup (t : StakingTxTracker Tx) (h : String) (p : Nat)
    (hp : t.transactions.lookup h = some p) : h ∈ t.transactions :=
  AList.lookup_isSome.mp (by rw [hp]; rfl)

/-- C1. For every registry (reachable or not), every transaction whose hash string is not
a key and every script: `Add` returns `nil`, and afterwards `Get` of that hash returns a
non-nil pointer to the record holding this transaction, this script and the state `Send`. -/
theorem Add_then_Get (txHash : Tx → String) (t : StakingTxTracker Tx) (tx : Tx)
    (s : List (Fin 256)) (hn : txHash tx ∉ t.transactions) :
    (Add txHash t tx s).1 = none ∧
    Get (Add txHash t tx s).2 (txHash tx) ≠ 0 ∧
    entryAt (Add txHash t tx s).2 (txHash tx) = some ⟨tx, s, Send⟩ := by
  rw [Add_of_not_mem txHash t tx s hn]
  have hg : Get (⟨t.transactions.insert (txHash tx) (t.cells.length + 1),
      t.cells ++ [⟨tx, s, Send⟩]⟩ : StakingTxTracker Tx) (txHash tx) = t.cells.length + 1 :=
    Get_of_lookup _ _ _ (AList.lookup_insert _)
  refine ⟨rfl, ?_, ?_⟩
  · rw [hg]; exact Nat.succ_ne_zero _
  · unfold entryAt
    rw [hg]
    exact deref_append_new _ _


/-- C2. `Add` of a transaction whose hash string is already a key returns the error
"tx with hash ... already added" and leaves the registry as it was; `Add` returns an error
only when the hash string is a key.  In particular a second `Add` with the hash of a first
one fails and changes nothing, also when a `SetState` on that hash came in between. -/
theorem Add_duplicate (txHash : Tx → String) (t : StakingTxTracker Tx) (tx : Tx)
    (s : List (Fin 256)) :
    (txHash tx ∈ t.transactions →
      Add txHash t tx s = (some ("tx with hash " ++ txHash tx ++ " already added"), t)) ∧
    ((Add txHash t tx s).1 ≠ none ↔ txHash tx ∈ t.transactions) ∧
    (∀ (tx' : Tx) (s' : List (Fin 256)), txHash tx' = txHash tx →
      Add txHash (Add txHash t tx s).2 tx' s' =
        (some ("tx with hash " ++ txHash tx ++ " already added"), (Add txHash t tx s).2)) ∧
    (∀ (st : TxState) (err : Option String) (t1 : StakingTxTracker Tx) (tx' : Tx)
      (s' : List (Fin 256)),
      SetState (Add txHash t tx s).2 (txHash tx) st = Outcome.returned err t1 →
      txHash tx' = txHash tx →
      Add txHash t1 tx' s' = (some ("tx with hash " ++ txHash tx ++ " already added"), t1)) := by
  have hkey : txHash tx ∈ (Add txHash t tx s).2.transactions := by
    by_cases hm : txHash tx ∈ t.transactions
    · rw [Add_of_mem txHash t tx s hm]; exact hm
    · rw [Add_of_not_mem txHash t tx s hm]
      exact (AList.mem_insert _).mpr (Or.inl rfl)
  refine ⟨fun hm => Add_of_mem txHash t tx s hm, ?_, ?_, ?_⟩
  · constructor
    · intro he
      by_contra hm
      rw [Add_of_not_mem txHash t tx s hm] at he
      exact he rfl
    · intro hm
      rw [Add_of_mem txHash t tx s hm]
      simp
  · intro tx' s' heq
    have := Add_of_mem txHash (Add txHash t tx s).2 tx' s' (by rw [heq]; exact hkey)
    rw [this, heq]
  · intro st err t1 tx' s' hs heq
    have hk1 : txHash tx' ∈ t1.transactions := by
      rcases SetState_returned _ _ _ _ _ hs with ⟨_, _, h3⟩ | ⟨p, e, _, _, _, h4⟩
      · rw [h3, heq]; exact hkey
      · rw [h4, heq]; exact hkey
    have := Add_of_mem txHash t1 tx' s' hk1
    rw [this, heq]

/-- C3. In a registry reachable from `NewStakingTxTracker`, `SetState` on a hash that is
a key returns `nil` whatever the new and the old state are, and afterwards `Get` of the
hash returns the same non-nil pointer, behind which the transaction and the script are the
ones from before the call and the state is the one just set. -/
theorem SetState_then_Get (txHash : Tx → String) (t : StakingTxTracker Tx) (h : String)
    (st : TxState) (hr : Reachable txHash t) (hm : h ∈ t.transactions) :
    ∃ (t' : StakingTxTracker Tx) (e : TrackedTransaction Tx),
      SetState t h st = Outcome.returned none t' ∧
      Get t h ≠ 0 ∧ entryAt t h = some e ∧
      Get t' h = Get t h ∧ entryAt t' h = some ⟨e.tx, e.txscript, st⟩ := by
  have hw := WF_of_Reachable txHash t hr
  obtain ⟨p, hp⟩ := lookup_of_mem t h hm
  obtain ⟨hp0, hp1⟩ := hw.1 h p hp
  obtain ⟨e, he⟩ := deref_of_valid t.cells p hp0 hp1
  refine ⟨⟨t.transactions, t.cells.set (p - 1) ⟨e.tx, e.txscript, st⟩⟩, e,
    SetState_of_lookup t h st p e hp he, ?_, ?_, ?_, ?_⟩
  · rw [Get_of_lookup t h p hp]; exact Nat.ne_of_gt hp0
  · unfold entryAt; rw [Get_of_lookup t h p hp]; exact he
  · rw [Get_of_lookup t h p hp]; exact Get_of_lookup _ h p hp
  · have hg := Get_of_lookup (⟨t.transactions,
      t.cells.set (p - 1) ⟨e.tx, e.txscript, st⟩⟩ : StakingTxTracker Tx) h p hp
    unfold entryAt
    rw [hg]
    exact deref_set_same t.cells p e _ he

/-- C4. `SetState` returns an error exactly when the hash is not a key of the registry;
the error is "tx with hash ... not found" and the registry after the call is the registry
before it. -/
theorem SetState_error_iff (t : StakingTxTracker Tx) (h : String) (st : TxState) :
    ((∃ (msg : String) (t' : StakingTxTracker Tx),
        SetState t h st = Outcome.returned (some msg) t') ↔ h ∉ t.transactions) ∧
    (∀ (msg : String) (t' : StakingTxTracker Tx),
        SetState t h st = Outcome.returned (some msg) t' →
        msg = "tx with hash " ++ h ++ " not found" ∧ t' = t) := by
  constructor
  · constructor
    · rintro ⟨msg, t', hs⟩
      rcases SetState_returned _ _ _ _ _ hs with ⟨h1, _, _⟩ | ⟨p, e, _, _, h3, _⟩
      · exact h1
      · cases h3
    · intro hn
      exact ⟨_, t, SetState_of_not_mem t h st hn⟩
  · intro msg t' hs
    rcases SetState_returned _ _ _ _ _ hs with ⟨_, h2, h3⟩ | ⟨p, e, _, _, h3, _⟩
    · exact ⟨(Option.some.inj h2), h3⟩
    · cases h3

/-- C5. After `Remove` of a hash, `Get` of that hash returns `nil`; `Remove` of a hash that
is no key leaves the registry as it was; `Remove` twice is `Remove` once. -/
theorem Remove_then_Get (t : StakingTxTracker Tx) (h : String) :
    Get (Remove t h) h = 0 ∧ entryAt (Remove t h) h = none ∧
    (h ∉ t.transactions → Remove t h = t) ∧
    Remove (Remove t h) h = Remove t h := by
  have hn : h ∉ (Remove t h).transactions := by
    simp [Remove]
  have hid : ∀ u : StakingTxTracker Tx, h ∉ u.transactions → Remove u h = u := by
    intro u hu
    cases u with
    | mk m c =>
      simp only [Remove]
      congr 1
      apply AList.ext
      simp only [AList.erase]
      exact List.kerase_of_not_mem_keys hu
  have hg := Get_of_not_mem (Remove t h) h hn
  refine ⟨hg, ?_, hid t, hid _ hn⟩
  unfold entryAt
  rw [hg]
  rfl

/-- C7. In a registry reachable from `NewStakingTxTracker`, `Get` returns `nil` exactly
for the hashes that are no key: no key is mapped to `nil`, and behind the pointer stored
under a key there is a record. -/
theorem Get_nil_iff (txHash : Tx → String) (t : StakingTxTracker Tx) (h : String)
    (hr : Reachable txHash t) :
    (Get t h = 0 ↔ h ∉ t.transactions) ∧
    (∀ (k : String) (p : Nat), t.transactions.lookup k = some p → p ≠ 0) ∧
    (h ∈ t.transactions → ∃ e : TrackedTransaction Tx, entryAt t h = some e) := by
  have hw := WF_of_Reachable txHash t hr
  refine ⟨⟨?_, Get_of_not_mem t h⟩, ?_, ?_⟩
  · intro hg hm
    obtain ⟨p, hp⟩ := lookup_of_mem t h hm
    rw [Get_of_lookup t h p hp] at hg
    exact Nat.ne_of_gt (hw.1 h p hp).1 hg
  · intro k p hp
    exact Nat.ne_of_gt (hw.1 k p hp).1
  · intro hm
    obtain ⟨p, hp⟩ := lookup_of_mem t h hm
    obtain ⟨hp0, hp1⟩ := hw.1 h p hp
    unfold entryAt
    rw [Get_of_lookup t h p hp]
    exact deref_of_valid t.cells p hp0 hp1


theorem Get_le (t : StakingTxTracker Tx) (k : String) (hw : WF t) :
    Get t k ≤ t.cells.length := by
  by_cases hm : k ∈ t.transactions
  · obtain ⟨p, hp⟩ := lookup_of_mem t k hm
    rw [Get_of_lookup t k p hp]
    exact (hw.1 k p hp).2
  · rw [Get_of_not_mem t k hm]
    exact Nat.zero_le _

theorem Get_congr (t t' : StakingTxTracker Tx) (k : String)
    (h : t'.transactions.lookup k = t.transactions.lookup k) : Get t' k = Get t k := by
  simp only [Get, h]

theorem Add_frame (txHash : Tx → String) (t : StakingTxTracker Tx) (tx : Tx)
    (s : List (Fin 256)) (k : String) (hw : WF t) (hne : k ≠ txHash tx) :
    Get (Add txHash t tx s).2 k = Get t k ∧
    entryAt (Add txHash t tx s).2 k = entryAt t k := by
  by_cases hm : txHash tx ∈ t.transactions
  · rw [Add_of_mem txHash t tx s hm]
    exact ⟨rfl, rfl⟩
  · rw [Add_of_not_mem txHash t tx s hm]
    have hg : Get (⟨t.transactions.insert (txHash tx) (t.cells.length + 1),
        t.cells ++ [⟨tx, s, Send⟩]⟩ : StakingTxTracker Tx) k = Get t k :=
      Get_congr _ _ k (AList.lookup_insert_ne hne)
    refine ⟨hg, ?_⟩
    unfold entryAt
    rw [hg]
    exact deref_append_old t.cells _ (Get t k) (Get_le t k hw)

theorem SetState_frame (t t' : StakingTxTracker Tx) (h k : String) (st : TxState)
    (err : Option String) (hw : WF t) (hne : k ≠ h)
    (hs : SetState t h st = Outcome.returned err t') :
    Get t' k = Get t k ∧ entryAt t' k = entryAt t k := by
  rcases SetState_returned _ _ _ _ _ hs with ⟨_, _, h3⟩ | ⟨p, e, hp, he, _, h4⟩
  · rw [h3]; exact ⟨rfl, rfl⟩
  · subst h4
    have hg : Get (⟨t.transactions, t.cells.set (p - 1) ⟨e.tx, e.txscript, st⟩⟩ :
        StakingTxTracker Tx) k = Get t k := Get_congr _ _ k rfl
    refine ⟨hg, ?_⟩
    unfold entryAt
    rw [hg]
    apply deref_set_ne _ _ _ _ (hw.1 h p hp).1
    intro hk
    by_cases hm : k ∈ t.transactions
    · obtain ⟨q, hq⟩ := lookup_of_mem t k hm
      rw [Get_of_lookup t k q hq] at hk
      subst hk
      exact hne (hw.2 k h _ hq hp)
    · rw [Get_of_not_mem t k hm] at hk
      have := (hw.1 h p hp).1
      omega

theorem Remove_frame (t : StakingTxTracker Tx) (h k : String) (hne : k ≠ h) :
    Get (Remove t h) k = Get t k ∧ entryAt (Remove t h) k = entryAt t k := by
  have hg : Get (Remove t h) k = Get t k :=
    Get_congr _ _ k (AList.lookup_erase_ne hne)
  refine ⟨hg, ?_⟩
  unfold entryAt
  rw [hg]
  rfl

/-- C10. In a registry reachable from `NewStakingTxTracker`, for hashes `k ≠ h`: `Get(k)`
returns the same pointer, with the same record behind it, after `Add` of a transaction with
hash `h`, after `SetState(h, _)` and after `Remove(h)`.  Moreover `SetState` and `Remove`
create no key, `Add` and `SetState` delete no key, and `Add` and `Remove` leave the record
of every key they keep as it was. -/
theorem mutators_frame (txHash : Tx → String) (t : StakingTxTracker Tx) (h k : String)
    (hr : Reachable txHash t) (hne : k ≠ h) :
    (∀ (tx : Tx) (s : List (Fin 256)), txHash tx = h →
      Get (Add txHash t tx s).2 k = Get t k ∧
      entryAt (Add txHash t tx s).2 k = entryAt t k) ∧
    (∀ (st : TxState) (err : Option String) (t' : StakingTxTracker Tx),
      SetState t h st = Outcome.returned err t' →
      Get t' k = Get t k ∧ entryAt t' k = entryAt t k) ∧
    (Get (Remove t h) k = Get t k ∧ entryAt (Remove t h) k = entryAt t k) ∧
    (∀ (j : String) (st : TxState) (err : Option String) (t' : StakingTxTracker Tx),
      SetState t h st = Outcome.returned err t' →
      (j ∈ t'.transactions ↔ j ∈ t.transactions)) ∧
    (∀ j : String, j ∈ (Remove t h).transactions ↔ j ≠ h ∧ j ∈ t.transactions) ∧
    (∀ (j : String) (tx : Tx) (s : List (Fin 256)), j ∈ t.transactions →
      j ∈ (Add txHash t tx s).2.transactions ∧
      Get (Add txHash t tx s).2 j = Get t j ∧
      entryAt (Add txHash t tx s).2 j = entryAt t j) ∧
    (∀ j : String, j ∈ (Remove t h).transactions →
      Get (Remove t h) j = Get t j ∧ entryAt (Remove t h) j = entryAt t j) := by
  have hw := WF_of_Reachable txHash t hr
  refine ⟨?_, ?_, Remove_frame t h k hne, ?_, ?_, ?_, ?_⟩
  · intro tx s hh
    exact Add_frame txHash t tx s k hw (by rw [hh]; exact hne)
  · intro st err t' hs
    exact SetState_frame t t' h k st err hw hne hs
  · intro j st err t' hs
    rcases SetState_returned _ _ _ _ _ hs with ⟨_, _, h3⟩ | ⟨p, e, _, _, _, h4⟩
    · rw [h3]
    · rw [h4]
  · intro j
    simp only [Remove, AList.mem_erase]
  · intro j tx s hj
    by_cases hm : txHash tx ∈ t.transactions
    · rw [Add_of_mem txHash t tx s hm]
      exact ⟨hj, rfl, rfl⟩
    · have hjne : j ≠ txHash tx := fun e => hm (e ▸ hj)
      refine ⟨?_, Add_frame txHash t tx s j hw hjne⟩
      rw [Add_of_not_mem txHash t tx s hm]
      exact (AList.mem_insert _).mpr (Or.inr hj)
  · intro j hj
    simp only [Remove, AList.mem_erase] at hj
    exact Remove_frame t h j hj.1


theorem mem_of_deref (cells : List (TrackedTransaction Tx)) (p : Nat)
    (e : TrackedTransaction Tx) (h : deref cells p = some e) : e ∈ cells := by
  cases p with
  | zero => simp [deref] at h
  | succ q =>
    simp only [deref] at h
    exact List.getElem?_mem h

theorem cells_step (P : TxState → Prop) (txHash : Tx → String) (t t' : StakingTxTracker Tx)
    (c : Call Tx) (hc : ∀ (h : String) (st : TxState), c = Call.setState h st → P st)
    (h0 : P Send) (ht : ∀ r ∈ t.cells, P r.state) (hs : step txHash t c = some t') :
    ∀ r ∈ t'.cells, P r.state := by
  cases c with
  | add tx s =>
    simp only [step, Option.some.injEq] at hs
    subst hs
    unfold Add
    dsimp only
    split
    · exact ht
    · intro r hr
      rcases List.mem_append.mp hr with h1 | h1
      · exact ht r h1
      · rw [List.mem_singleton.mp h1]; exact h0
  | setState h st =>
    simp only [step] at hs
    split at hs
    · rename_i err post heq
      cases hs
      rcases SetState_returned _ _ _ _ _ heq with ⟨_, _, h3⟩ | ⟨p, e, _, _, _, h4⟩
      · rw [h3]; exact ht
      · subst h4
        intro r hr
        rcases List.mem_or_eq_of_mem_set hr with h1 | h1
        · exact ht r h1
        · rw [h1]; exact hc h st rfl
    · cases hs
  | remove h =>
    simp only [step, Option.some.injEq] at hs
    subst hs
    exact ht

theorem cells_run (P : TxState → Prop) (txHash : Tx → String) (h0 : P Send)
    (calls : List (Call Tx)) :
    ∀ t t' : StakingTxTracker Tx,
      (∀ (h : String) (st : TxState), Call.setState h st ∈ calls → P st) →
      (∀ r ∈ t.cells, P r.state) → run txHash t calls = some t' →
      ∀ r ∈ t'.cells, P r.state := by
  induction calls with
  | nil =>
    intro t t' _ ht h
    simp only [run, Option.some.injEq] at h
    subst h
    exact ht
  | cons c cs ih =>
    intro t t' hc ht h
    simp only [run] at h
    split at h
    · cases h
    · rename_i t1 heq
      refine ih t1 t' (fun k st hk => hc k st (List.mem_cons_of_mem _ hk)) ?_ h
      exact cells_step P txHash t t1 c
        (fun k st hk => hc k st (by rw [hk]; exact List.mem_cons_self _ _)) h0 ht heq

/-- C8, as the code has it. The state of an entry is `Send` when `Add` creates it and
afterwards the value last passed to `SetState`: in a registry obtained from
`NewStakingTxTracker` by calls of `Add`, `Remove` and `SetState` in which every `SetState`
passes `Send` or `Confirmed`, the state of every entry is `Send` or `Confirmed`. -/
theorem state_Send_or_Confirmed (txHash : Tx → String) (calls : List (Call Tx))
    (t : StakingTxTracker Tx)
    (hargs : ∀ (h : String) (st : TxState), Call.setState h st ∈ calls →
      st = Send ∨ st = Confirmed)
    (hrun : run txHash NewStakingTxTracker calls = some t)
    (k : String) (e : TrackedTransaction Tx) (he : entryAt t k = some e) :
    e.state = Send ∨ e.state = Confirmed := by
  have hall := cells_run (fun st => st = Send ∨ st = Confirmed) txHash (Or.inl rfl) calls
    NewStakingTxTracker t hargs (by intro r hr; simp [NewStakingTxTracker] at hr) hrun
  exact hall e (mem_of_deref t.cells _ e he)

/-- C8 refuted. `TxState` is `uint8` and `SetState` stores any of its values: after
`Add` of a transaction with hash "a" and `SetState("a", 7)` the entry under "a" has
state 7, which is neither `Send` nor `Confirmed`. -/
theorem state_two_valued_refuted :
    ∃ (t : StakingTxTracker String) (e : TrackedTransaction String),
      run id NewStakingTxTracker [Call.add "a" [], Call.setState "a" 7] = some t ∧
      entryAt t "a" = some e ∧ e.state = 7 ∧ ¬ (e.state = Send ∨ e.state = Confirmed) :=
  ⟨⟨(∅ : AList (fun _ : String => Ptr)).insert "a" 1, [⟨"a", [], 7⟩]⟩, ⟨"a", [], 7⟩,
    rfl, rfl, rfl, by decide⟩


theorem lookup_of_entry (t : StakingTxTracker Tx) (e : Sigma (fun _ : String => Ptr))
    (he : e ∈ t.transactions.entries) : t.transactions.lookup e.1 = some e.2 := by
  have h : e.2 ∈ t.transactions.lookup e.1 := AList.mem_lookup_iff.mpr he
  exact h

theorem option_map_eta (o : Option (TrackedTransaction Tx)) :
    o.map (fun r => (⟨r.tx, r.txscript, r.state⟩ : TrackedTransaction Tx)) = o := by
  cases o <;> rfl

theorem view_Add_new (txHash : Tx → String) (t : StakingTxTracker Tx) (tx : Tx)
    (s : List (Fin 256)) (hw : WF t) (hm : txHash tx ∉ t.transactions) :
    view (Add txHash t tx s).2 = (txHash tx, some ⟨tx, s, Send⟩) :: view t := by
  rw [Add_of_not_mem txHash t tx s hm]
  simp only [view, AList.insert_entries_of_neg hm, List.map_cons]
  congr 1
  · rw [deref_append_new]
  · apply List.map_congr_left
    intro e he
    rw [deref_append_old t.cells _ e.2 (hw.1 e.1 e.2 (lookup_of_entry t e he)).2]

theorem view_SetState (t t1 : StakingTxTracker Tx) (h : String) (st : TxState)
    (err : Option String) (hw : WF t) (hs : SetState t h st = Outcome.returned err t1) :
    view t1 = (view t).map (fun x =>
      (x.1, x.2.map (fun r => ⟨r.tx, r.txscript, if h = x.1 then st else r.state⟩))) := by
  rcases SetState_returned _ _ _ _ _ hs with ⟨h1, _, h3⟩ | ⟨p, e, hp, he, _, h4⟩
  · rw [h3]
    simp only [view, List.map_map]
    apply List.map_congr_left
    intro x hx
    have hx1 : h ≠ x.1 := by
      intro heq
      exact h1 (heq ▸ mem_of_lookup t x.1 x.2 (lookup_of_entry t x hx))
    simp only [Function.comp, if_neg hx1, option_map_eta]
  · subst h4
    simp only [view, List.map_map]
    apply List.map_congr_left
    intro x hx
    have hl := lookup_of_entry t x hx
    simp only [Function.comp]
    by_cases hx1 : h = x.1
    · have hx2 : x.2 = p := by
        rw [hx1, hl] at hp
        exact Option.some.inj hp
      rw [hx2, deref_set_same t.cells p e _ he, he]
      simp [hx1]
    · have hx2 : x.2 ≠ p := by
        intro heq
        rw [heq] at hl
        exact hx1 (hw.2 h x.1 p hp hl)
      rw [deref_set_ne t.cells p x.2 _ (hw.1 h p hp).1 hx2]
      simp only [if_neg hx1, option_map_eta]

theorem SetState_total (t : StakingTxTracker Tx) (h : String) (st : TxState) (hw : WF t) :
    ∃ (err : Option String) (t' : StakingTxTracker Tx),
      SetState t h st = Outcome.returned err t' := by
  by_cases hm : h ∈ t.transactions
  · obtain ⟨p, hp⟩ := lookup_of_mem t h hm
    obtain ⟨e, he⟩ := deref_of_valid t.cells p (hw.1 h p hp).1 (hw.1 h p hp).2
    exact ⟨_, _, SetState_of_lookup t h st p e hp he⟩
  · exact ⟨_, _, SetState_of_not_mem t h st hm⟩

theorem run_append (txHash : Tx → String) (a b : List (Call Tx)) :
    ∀ t t1 : StakingTxTracker Tx, run txHash t a = some t1 →
      run txHash t (a ++ b) = run txHash t1 b := by
  induction a with
  | nil => intro t t1 h; simp only [run, Option.some.injEq] at h; subst h; rfl
  | cons c cs ih =>
    intro t t1 h
    simp only [run, List.cons_append] at h ⊢
    split at h
    · cases h
    · rename_i t2 heq
      exact ih t2 t1 h

theorem run_sets (txHash : Tx → String) (sets : List (String × TxState)) :
    ∀ t : StakingTxTracker Tx, WF t →
      ∃ t' : StakingTxTracker Tx,
        run txHash t (sets.map (fun c => Call.setState c.1 c.2)) = some t' ∧
        view t' = (view t).map (fun x =>
          (x.1, x.2.map (fun r => ⟨r.tx, r.txscript, stateAfter sets x.1 r.state⟩))) := by
  induction sets with
  | nil =>
    intro t _
    refine ⟨t, rfl, ?_⟩
    simp only [stateAfter, List.foldl_nil, option_map_eta, List.map_id_fun', id]
  | cons c rest ih =>
    intro t hw
    obtain ⟨err, t1, hs⟩ := SetState_total t c.1 c.2 hw
    obtain ⟨t', hrun, hview⟩ := ih t1 (WF_SetState t t1 c.1 c.2 err hw hs)
    refine ⟨t', ?_, ?_⟩
    · simp only [List.map_cons, run, step, hs]
      exact hrun
    · rw [hview, view_SetState t t1 c.1 c.2 err hw hs, List.map_map]
      apply List.map_congr_left
      intro x _
      cases hx : x.2 with
      | none => simp [hx]
      | some r => simp [hx, stateAfter]

theorem run_adds (txHash : Tx → String) (txs : List (Tx × List (Fin 256))) :
    ∀ t : StakingTxTracker Tx, WF t → (∀ x ∈ txs, txHash x.1 ∉ t.transactions) →
      (txs.map (fun x => txHash x.1)).Nodup →
      ∃ t' : StakingTxTracker Tx,
        run txHash t (txs.map (fun x => Call.add x.1 x.2)) = some t' ∧ WF t' ∧
        view t' = txs.reverse.map (fun x => (txHash x.1, some ⟨x.1, x.2, Send⟩)) ++ view t := by
  induction txs with
  | nil => intro t hw _ _; exact ⟨t, rfl, hw, rfl⟩
  | cons x rest ih =>
    intro t hw hfresh hnd
    have hx : txHash x.1 ∉ t.transactions := hfresh x (List.mem_cons_self _ _)
    rw [List.map_cons, List.nodup_cons] at hnd
    have hfresh1 : ∀ y ∈ rest, txHash y.1 ∉ (Add txHash t x.1 x.2).2.transactions := by
      intro y hy hmem
      rw [Add_of_not_mem txHash t x.1 x.2 hx] at hmem
      rcases (AList.mem_insert _).mp hmem with h1 | h1
      · exact hnd.1 (List.mem_map.mpr ⟨y, hy, h1⟩)
      · exact hfresh y (List.mem_cons_of_mem _ hy) h1
    obtain ⟨t', hrun, hw', hview⟩ :=
      ih (Add txHash t x.1 x.2).2 (WF_Add txHash t x.1 x.2 hw) hfresh1 hnd.2
    refine ⟨t', ?_, hw', ?_⟩
    · simp only [List.map_cons, run, step]
      exact hrun
    · rw [hview, view_Add_new txHash t x.1 x.2 hw hx]
      simp


theorem GetAll_eq_view (t : StakingTxTracker Tx) :
    (GetAll t).map (deref t.cells) = (view t).map (fun x => x.2) := by
  simp only [GetAll, view, List.map_map]
  rfl

/-- C6. After `Add` of `N` transactions with pairwise distinct hash strings to a new
registry and any sequence of `SetState` calls, no call has panicked and `GetAll` returns
`N` pairwise distinct pointers; the records behind them are, up to order, the added
transactions with their scripts, each with the state last set on its hash, `Send` when
none was: for every added transaction exactly one returned pointer has it behind it.  For
every registry the length of `GetAll` is the number of keys. -/
theorem GetAll_after_adds (txHash : Tx → String) (txs : List (Tx × List (Fin 256)))
    (sets : List (String × TxState)) (hd : (txs.map (fun x => txHash x.1)).Nodup) :
    ∃ t : StakingTxTracker Tx,
      run txHash NewStakingTxTracker
        (txs.map (fun x => Call.add x.1 x.2) ++ sets.map (fun c => Call.setState c.1 c.2))
        = some t ∧
      (GetAll t).length = txs.length ∧
      (GetAll t).Nodup ∧
      List.Perm ((GetAll t).map (deref t.cells))
        (txs.map (fun x => some ⟨x.1, x.2, stateAfter sets (txHash x.1) Send⟩)) ∧
      (∀ x ∈ txs, ∃! p : Nat, p ∈ GetAll t ∧
        ∃ e : TrackedTransaction Tx, deref t.cells p = some e ∧ e.tx = x.1 ∧
          e.txscript = x.2 ∧ e.state = stateAfter sets (txHash x.1) Send) ∧
      ∀ u : StakingTxTracker Tx, (GetAll u).length = u.transactions.keys.length := by
  obtain ⟨t1, hrun1, hw1, hview1⟩ := run_adds txHash txs NewStakingTxTracker WF_new
    (fun x _ => AList.not_mem_empty _) hd
  obtain ⟨t, hrun, hview⟩ := run_sets txHash sets t1 hw1
  have hv : view t = txs.reverse.map
      (fun x => (txHash x.1, some ⟨x.1, x.2, stateAfter sets (txHash x.1) Send⟩)) := by
    rw [hview, hview1]
    simp [view, NewStakingTxTracker]
  have hall : (GetAll t).map (deref t.cells) = txs.reverse.map
      (fun x => some ⟨x.1, x.2, stateAfter sets (txHash x.1) Send⟩) := by
    rw [GetAll_eq_view, hv, List.map_map]
    rfl
  have hperm : List.Perm ((GetAll t).map (deref t.cells))
      (txs.map (fun x => some ⟨x.1, x.2, stateAfter sets (txHash x.1) Send⟩)) := by
    rw [hall]
    exact (List.reverse_perm txs).map _
  have hnd0 : (txs.map (fun x => (some ⟨x.1, x.2, stateAfter sets (txHash x.1) Send⟩ :
      Option (TrackedTransaction Tx)))).Nodup := by
    apply List.Nodup.of_map (fun o : Option (TrackedTransaction Tx) => o.map (fun e => txHash e.tx))
    rw [List.map_map]
    have : (txs.map (fun x => txHash x.1)).map some =
        txs.map ((fun o : Option (TrackedTransaction Tx) => o.map (fun e => txHash e.tx)) ∘
          (fun x => some ⟨x.1, x.2, stateAfter sets (txHash x.1) Send⟩)) := by
      rw [List.map_map]
      rfl
    rw [← this]
    exact hd.map (Option.some_injective _)
  have hnd1 : ((GetAll t).map (deref t.cells)).Nodup := hperm.nodup_iff.mpr hnd0
  have hnd : (GetAll t).Nodup := List.Nodup.of_map _ hnd1
  refine ⟨t, ?_, ?_, hnd, hperm, ?_, ?_⟩
  · rw [run_append txHash _ _ NewStakingTxTracker t1 hrun1]
    exact hrun
  · have := congrArg List.length hall
    simpa using this
  · intro x hx
    have hmem : (some ⟨x.1, x.2, stateAfter sets (txHash x.1) Send⟩ :
        Option (TrackedTransaction Tx)) ∈ (GetAll t).map (deref t.cells) :=
      hperm.mem_iff.mpr (List.mem_map.mpr ⟨x, hx, rfl⟩)
    obtain ⟨p, hp, hpe⟩ := List.mem_map.mp hmem
    refine ⟨p, ⟨hp, _, hpe, rfl, rfl, rfl⟩, ?_⟩
    rintro q ⟨hq, e, hqe, he1, he2, _⟩
    have hmem2 : some e ∈ (GetAll t).map (deref t.cells) :=
      List.mem_map.mpr ⟨q, hq, hqe⟩
    obtain ⟨y, hy, hye⟩ := List.mem_map.mp (hperm.mem_iff.mp hmem2)
    have hye1 : y.1 = x.1 := by
      have := congrArg (fun o : Option (TrackedTransaction Tx) => o.map (fun r => r.tx)) hye
      simp only [Option.map_some', Option.some.injEq] at this
      rw [this, he1]
    have hye2 : y.2 = x.2 := by
      have := congrArg (fun o : Option (TrackedTransaction Tx) => o.map (fun r => r.txscript)) hye
      simp only [Option.map_some', Option.some.injEq] at this
      rw [this, he2]
    have hyx : y = x := Prod.ext hye1 hye2
    rw [hyx] at hye
    exact List.inj_on_of_nodup_map hnd1 hq hp (by rw [hqe, hpe, ← hye])
  · intro u
    simp [GetAll, AList.keys, List.keys]


theorem exampleTracker_reachable : Reachable Prod.fst exampleTracker :=
  ⟨exampleCalls, rfl⟩

theorem Add_then_Get_witness :
    "c" ∉ exampleTracker.transactions ∧
    (Add Prod.fst exampleTracker ("c", 3) [3]).1 = none ∧
    Get (Add Prod.fst exampleTracker ("c", 3) [3]).2 "c" ≠ 0 ∧
    entryAt (Add Prod.fst exampleTracker ("c", 3) [3]).2 "c" = some ⟨("c", 3), [3], Send⟩ :=
  ⟨by decide, Add_then_Get Prod.fst exampleTracker ("c", 3) [3] (by decide)⟩

theorem Add_duplicate_witness :
    "a" ∈ exampleTracker.transactions ∧
    Add Prod.fst exampleTracker ("a", 9) [9] =
      (some ("tx with hash " ++ "a" ++ " already added"), exampleTracker) :=
  ⟨by decide, (Add_duplicate Prod.fst exampleTracker ("a", 9) [9]).1 (by decide)⟩

theorem SetState_then_Get_witness :
    Reachable Prod.fst exampleTracker ∧ "a" ∈ exampleTracker.transactions ∧
    entryAt exampleTracker "a" = some ⟨("a", 1), [1], Confirmed⟩ ∧
    ∃ (t' : StakingTxTracker (String × Nat)) (e : TrackedTransaction (String × Nat)),
      SetState exampleTracker "a" Send = Outcome.returned none t' ∧
      Get exampleTracker "a" ≠ 0 ∧ entryAt exampleTracker "a" = some e ∧
      Get t' "a" = Get exampleTracker "a" ∧ entryAt t' "a" = some ⟨e.tx, e.txscript, Send⟩ :=
  ⟨exampleTracker_reachable, by decide, by decide,
    SetState_then_Get Prod.fst exampleTracker "a" Send exampleTracker_reachable (by decide)⟩

theorem SetState_error_iff_witness :
    "zz" ∉ exampleTracker.transactions ∧
    ∃ (msg : String) (t' : StakingTxTracker (String × Nat)),
      SetState exampleTracker "zz" Confirmed = Outcome.returned (some msg) t' :=
  ⟨by decide, (SetState_error_iff exampleTracker "zz" Confirmed).1.mpr (by decide)⟩

theorem Remove_then_Get_witness :
    "zz" ∉ exampleTracker.transactions ∧ Remove exampleTracker "zz" = exampleTracker ∧
    Get (Remove exampleTracker "a") "a" = 0 :=
  ⟨by decide, (Remove_then_Get exampleTracker "zz").2.2.1 (by decide),
    (Remove_then_Get exampleTracker "a").1⟩

theorem GetAll_after_adds_witness :
    ([(("a", 1), [1]), (("b", 2), [2])].map
      (fun x : (String × Nat) × List (Fin 256) => Prod.fst x.1)).Nodup ∧
    ∃ t : StakingTxTracker (String × Nat),
      run Prod.fst NewStakingTxTracker
        ([(("a", 1), [1]), (("b", 2), [2])].map (fun x => Call.add x.1 x.2) ++
          [("a", Confirmed), ("zz", Confirmed), ("a", Send), ("b", Confirmed)].map
            (fun c => Call.setState c.1 c.2)) = some t ∧
      (GetAll t).length = 2 :=
  ⟨by decide,
    match GetAll_after_adds Prod.fst [(("a", 1), [1]), (("b", 2), [2])]
      [("a", Confirmed), ("zz", Confirmed), ("a", Send), ("b", Confirmed)] (by decide) with
    | ⟨t, h1, h2, _⟩ => ⟨t, h1, h2⟩⟩

theorem Get_nil_iff_witness :
    Reachable Prod.fst exampleTracker ∧
    (Get exampleTracker "zz" = 0 ↔ "zz" ∉ exampleTracker.transactions) ∧
    (∃ e : TrackedTransaction (String × Nat), entryAt exampleTracker "a" = some e) :=
  ⟨exampleTracker_reachable,
    (Get_nil_iff Prod.fst exampleTracker "zz" exampleTracker_reachable).1,
    (Get_nil_iff Prod.fst exampleTracker "a" exampleTracker_reachable).2.2 (by decide)⟩

theorem state_Send_or_Confirmed_witness :
    (∀ (h : String) (st : TxState), Call.setState h st ∈ exampleCalls →
      st = Send ∨ st = Confirmed) ∧
    run Prod.fst NewStakingTxTracker exampleCalls = some exampleTracker ∧
    entryAt exampleTracker "a" = some ⟨("a", 1), [1], Confirmed⟩ ∧
    ((⟨("a", 1), [1], Confirmed⟩ : TrackedTransaction (String × Nat)).state = Send ∨
      (⟨("a", 1), [1], Confirmed⟩ : TrackedTransaction (String × Nat)).state = Confirmed) :=
  have hargs : ∀ (h : String) (st : TxState), Call.setState h st ∈ exampleCalls →
      st = Send ∨ st = Confirmed := by
    intro h st hm
    simp [exampleCalls] at hm
    exact Or.inr hm.2
  ⟨hargs, rfl, rfl,
    state_Send_or_Confirmed Prod.fst exampleCalls exampleTracker hargs rfl "a" _ rfl⟩

theorem mutators_frame_witness :
    Reachable Prod.fst exampleTracker ∧ "b" ≠ "a" ∧
    Get (Remove exampleTracker "a") "b" = Get exampleTracker "b" ∧
    entryAt (Remove exampleTracker "a") "b" = entryAt exampleTracker "b" :=
  ⟨exampleTracker_reachable, by decide,
    (mutators_frame Prod.fst exampleTracker "a" "b" exampleTracker_reachable
      (by decide)).2.2.1⟩

end
end Staker
